import Mathlib

/-!
Verification of the katdal core against its specification.

This development shallowly embeds the parts of the repository that the
specification talks about:

* `katdal/chunkstore.py` (present in the source tree): the chunk naming
  scheme of `ChunkStore` and the in-memory reference backend
  `DictChunkStore` together with a small model of the numpy slicing and
  broadcast-assignment semantics its one-line `get`/`put` bodies rely on.

* `katdal/categorical.py` (absent from the source tree; only its test
  `katdal/test/test_categorical.py` and its caller `katdal/visdatav4.py`
  are present): the dump/event selection `_single_event_per_dump`, the
  timeline builder `sensor_to_categorical` and the `CategoricalData`
  operations `remove` and `align`.  These are modelled from the
  specification and calibrated against the concrete expected values
  asserted by the in-tree test file.

Machine integers do not occur: all indices are `Nat`, and timestamps
are exact integers in a fixed decimal unit (milliseconds), in which the
decimal literals of the tests are exactly representable; the grid
rounding the code performs is invariant under the choice of unit and no
rounding operation of the test scenarios lands on a tie, so the float
vs. integer distinction is immaterial for every statement below.
-/

namespace Katdal

/-! ### Decimal digit strings

Infrastructure for reasoning about `Nat.repr`, which the embedding of
Python's `"{:05d}".format` below is built on.  `natDigits n` is the
list of decimal digit characters of `n`, most significant first.
-/

/-- Decimal digits of a natural number, most significant digit first. -/
def natDigits (n : Nat) : List Char :=
  if h : n < 10 then [Nat.digitChar n]
  else natDigits (n / 10) ++ [Nat.digitChar (n % 10)]
  decreasing_by exact Nat.div_lt_self (by omega) (by omega)

theorem natDigits_small {n : Nat} (h : n < 10) : natDigits n = [Nat.digitChar n] := by
  rw [natDigits]; simp [h]

theorem natDigits_large {n : Nat} (h : ¬ n < 10) :
    natDigits n = natDigits (n / 10) ++ [Nat.digitChar (n % 10)] := by
  rw [natDigits]; simp [h]

theorem toDigitsCore_eq_natDigits :
    ∀ (fuel n : Nat) (ds : List Char), n < fuel →
      Nat.toDigitsCore 10 fuel n ds = natDigits n ++ ds := by
  intro fuel
  induction fuel with
  | zero => intro n ds h; omega
  | succ f ih =>
    intro n ds h
    show (if n / 10 = 0 then Nat.digitChar (n % 10) :: ds
          else Nat.toDigitsCore 10 f (n / 10) (Nat.digitChar (n % 10) :: ds)) =
         natDigits n ++ ds
    by_cases hdiv : n / 10 = 0
    · have hn : n < 10 := by omega
      have : n % 10 = n := Nat.mod_eq_of_lt hn
      simp [hdiv, natDigits_small hn, this]
    · have hn : ¬ n < 10 := by
        intro hlt
        exact hdiv (Nat.div_eq_of_lt hlt)
      have hrec : n / 10 < f := by
        have h1 : n / 10 < n := Nat.div_lt_self (by omega) (by omega)
        omega
      rw [if_neg hdiv, ih (n / 10) _ hrec, natDigits_large hn, List.append_assoc]
      rfl

theorem repr_eq_natDigits (n : Nat) : Nat.repr n = (natDigits n).asString := by
  show (Nat.toDigits 10 n).asString = (natDigits n).asString
  unfold Nat.toDigits
  rw [toDigitsCore_eq_natDigits (n + 1) n [] (by omega), List.append_nil]

/-- Numeric value of a list of decimal digit characters (the inverse
reading used to prove that zero-padded decimal strings are injective). -/
def digitsVal (l : List Char) : Nat :=
  l.foldl (fun acc c => 10 * acc + (c.toNat - 48)) 0

theorem digitChar_val {d : Nat} (h : d < 10) : (Nat.digitChar d).toNat - 48 = d := by
  interval_cases d <;> rfl

theorem digitsVal_natDigits (n : Nat) : digitsVal (natDigits n) = n := by
  induction n using Nat.strong_induction_on with
  | _ n ih =>
    by_cases h : n < 10
    · simp [natDigits_small h, digitsVal, digitChar_val h]
    · rw [natDigits_large h]
      unfold digitsVal
      rw [List.foldl_append]
      have hrec : n / 10 < n := Nat.div_lt_self (by omega) (by omega)
      have := ih (n / 10) hrec
      unfold digitsVal at this
      rw [this]
      simp [digitChar_val (Nat.mod_lt n (by omega))]
      omega

theorem foldl_replicate_zero (k : Nat) :
    (List.replicate k '0').foldl (fun acc c => 10 * acc + (c.toNat - 48)) 0 = 0 := by
  induction k with
  | zero => rfl
  | succ m ih =>
    rw [List.replicate_succ, List.foldl_cons]
    have h0 : 10 * 0 + ('0'.toNat - 48) = 0 := by decide
    rw [h0]
    exact ih

theorem digitsVal_pad (k : Nat) (l : List Char) :
    digitsVal (List.replicate k '0' ++ l) = digitsVal l := by
  unfold digitsVal
  rw [List.foldl_append, foldl_replicate_zero k]

theorem natDigits_length_le {n e : Nat} (he : 0 < e) (h : n < 10 ^ e) :
    (natDigits n).length ≤ e := by
  induction e generalizing n with
  | zero => omega
  | succ m ih =>
    by_cases hn : n < 10
    · simp [natDigits_small hn]
    · rw [natDigits_large hn]
      have hm : 0 < m := by
        by_contra hm0
        have : m = 0 := by omega
        subst this
        simp at h
        omega
      have hdiv : n / 10 < 10 ^ m := by
        apply Nat.div_lt_of_lt_mul
        calc n < 10 ^ (m + 1) := h
          _ = 10 * 10 ^ m := by ring
      have := ih hm hdiv
      simp only [List.length_append, List.length_cons, List.length_nil]
      omega

/-! ### Chunk naming (`katdal/chunkstore.py`)

`ChunkStore.chunk_name` forms the chunk identifier from the array name
and the slice objects identifying the chunk:

    index = [s.start for s in slices]
    idx = '_'.join(["{:0{width}d}".format(i, width=cls.NAME_INDEX_WIDTH)
                    for i in index])
    return ChunkStore.join(array_name, idx)

with `NAME_SEP = '/'` and `NAME_INDEX_WIDTH = 5`.
-/

/-- Python's `sep.join(names)`. -/
def strJoin (sep : String) : List String → String
  | [] => ""
  | [s] => s
  | s :: t :: rest => s ++ sep ++ strJoin sep (t :: rest)

/-- Python's `"{:0Nd}".format(n)`: the decimal representation of `n`,
left-padded with zeros to at least `width` characters. -/
def formatFixedWidth (width n : Nat) : String :=
  (List.replicate (width - (Nat.repr n).length) '0').asString ++ Nat.repr n

/-- A Python slice object `slice(start, stop)` as used by the chunk store
(the chunk addressing contract only involves unit-stride slices, and only
the start offsets enter the chunk name). -/
structure PySlice where
  start : Nat
  stop : Nat
deriving DecidableEq

namespace ChunkStore

/-- `ChunkStore.NAME_SEP`. -/
def NAME_SEP : String := "/"

/-- `ChunkStore.NAME_INDEX_WIDTH`. -/
def NAME_INDEX_WIDTH : Nat := 5

/-- `ChunkStore.join(*names)`: join components with the name separator. -/
def join (names : List String) : String := strJoin NAME_SEP names

/-- `ChunkStore.chunk_name(array_name, slices)`. -/
def chunk_name (array_name : String) (slices : List PySlice) : String :=
  let index := slices.map PySlice.start
  let idx := strJoin "_" (index.map (formatFixedWidth NAME_INDEX_WIDTH))
  join [array_name, idx]

end ChunkStore

/-- Built from the words of the specification (for the refinement claim
about `chunk_identifier`): "building an identifier string by joining
`array_name` with the `/`-separated, fixed-width zero-padded (width 5)
start offsets of each dimension range, using `/` as the single reserved
name separator" — read literally, every component (the array name and
each offset field) is separated by `/`. -/
def chunkIdentifierSpecLiteral (array_name : String) (slices : List PySlice) : String :=
  strJoin ChunkStore.NAME_SEP
    (array_name :: slices.map (fun s => formatFixedWidth ChunkStore.NAME_INDEX_WIDTH s.start))

/-- The amended reading of the specification sentence: the width-5
zero-padded start offsets are joined by single underscores into one index
field, and that field is appended to the array name with the reserved
name separator `/`. -/
def chunkIdentifierAmended (array_name : String) (slices : List PySlice) : String :=
  array_name ++ ChunkStore.NAME_SEP ++
    strJoin "_" (slices.map (fun s => formatFixedWidth ChunkStore.NAME_INDEX_WIDTH s.start))

/-! Supporting lemmas: the padded decimal fields are uniquely decodable,
so the chunk name determines the start offsets. -/

theorem data_append (s t : String) : (s ++ t).data = s.data ++ t.data := rfl

theorem formatFixedWidth_data (w n : Nat) :
    (formatFixedWidth w n).data =
      List.replicate (w - (natDigits n).length) '0' ++ natDigits n := by
  unfold formatFixedWidth
  rw [data_append, repr_eq_natDigits]
  rfl

theorem digitsVal_formatFixedWidth (w n : Nat) :
    digitsVal (formatFixedWidth w n).data = n := by
  rw [formatFixedWidth_data, digitsVal_pad, digitsVal_natDigits]

theorem natDigits_ne_nil (n : Nat) : natDigits n ≠ [] := by
  by_cases h : n < 10
  · rw [natDigits_small h]; simp
  · rw [natDigits_large h]; simp

theorem formatFixedWidth_length {n : Nat} (h : n ≤ 99999) :
    (formatFixedWidth 5 n).data.length = 5 := by
  rw [formatFixedWidth_data]
  have h1 : (natDigits n).length ≤ 5 :=
    natDigits_length_le (by omega) (by omega : n < 10 ^ 5)
  have h2 : 1 ≤ (natDigits n).length := by
    cases hd : natDigits n with
    | nil => exact absurd hd (natDigits_ne_nil n)
    | cons a l => simp
  simp only [List.length_append, List.length_replicate]
  omega

/-- Join of same-width blocks with a fixed separator is injective. -/
theorem strJoin_fixed_width_inj (w : Nat) :
    ∀ (bs cs : List String), bs.length = cs.length →
      (∀ b ∈ bs, b.data.length = w) → (∀ c ∈ cs, c.data.length = w) →
      strJoin "_" bs = strJoin "_" cs → bs = cs
  | [], [], _, _, _, _ => rfl
  | [b], [c], _, _, _, h => by simpa using h
  | b :: b2 :: bs, c :: c2 :: cs, hlen, hb, hc, h => by
    have hd : (b ++ "_" ++ strJoin "_" (b2 :: bs)).data =
        (c ++ "_" ++ strJoin "_" (c2 :: cs)).data := by
      show (strJoin "_" (b :: b2 :: bs)).data = (strJoin "_" (c :: c2 :: cs)).data
      rw [h]
    rw [data_append, data_append, data_append, data_append, List.append_assoc,
      List.append_assoc] at hd
    have hbc : b.data = c.data ∧
        "_".data ++ (strJoin "_" (b2 :: bs)).data =
          "_".data ++ (strJoin "_" (c2 :: cs)).data :=
      List.append_inj hd (by
        rw [hb b (by simp), hc c (by simp)])
    have hrest : strJoin "_" (b2 :: bs) = strJoin "_" (c2 :: cs) := by
      have := hbc.2
      simp only [List.cons_append, List.nil_append, List.cons.injEq, true_and] at this
      exact congrArg String.mk (by simpa using this)
    have hbs : b2 :: bs = c2 :: cs :=
      strJoin_fixed_width_inj w (b2 :: bs) (c2 :: cs)
        (by simpa using hlen)
        (fun x hx => hb x (by simp [hx]))
        (fun x hx => hc x (by simp [hx]))
        hrest
    have hbceq : b = c := congrArg String.mk hbc.1
    rw [hbceq, hbs]

theorem chunk_name_data (name : String) (slices : List PySlice) :
    (ChunkStore.chunk_name name slices).data =
      name.data ++ '/' ::
        (strJoin "_" ((slices.map PySlice.start).map (formatFixedWidth 5))).data := by
  show (name ++ ChunkStore.NAME_SEP ++
      strJoin "_" ((slices.map PySlice.start).map (formatFixedWidth 5))).data = _
  rw [data_append, data_append, List.append_assoc]
  rfl

theorem append_cons_cancel {l : List Char} {c : Char} {a b : List Char}
    (h : l ++ c :: a = l ++ c :: b) : a = b := by
  have := List.append_cancel_left h
  simpa using this

/-- C6: `chunk_name` is deterministic and injective over start offsets.
For every array name, two slice sequences with equal per-dimension start
offsets produce the identical identifier string; and for a fixed array
name and dimension count, two slice sequences differing in some start
offset (each offset at most 99999) produce different identifier
strings. -/
theorem claim6_chunk_name_deterministic_injective
    (name : String) (s1 s2 : List PySlice) :
    (s1.map PySlice.start = s2.map PySlice.start →
      ChunkStore.chunk_name name s1 = ChunkStore.chunk_name name s2) ∧
    (s1.length = s2.length →
      (∀ p ∈ s1, p.start ≤ 99999) → (∀ p ∈ s2, p.start ≤ 99999) →
      s1.map PySlice.start ≠ s2.map PySlice.start →
      ChunkStore.chunk_name name s1 ≠ ChunkStore.chunk_name name s2) := by
  constructor
  · intro h
    simp only [ChunkStore.chunk_name]
    rw [h]
  · intro hlen hb1 hb2 hne heq
    apply hne
    have hdata := congrArg String.data heq
    rw [chunk_name_data, chunk_name_data] at hdata
    have hjoin : strJoin "_" ((s1.map PySlice.start).map (formatFixedWidth 5)) =
        strJoin "_" ((s2.map PySlice.start).map (formatFixedWidth 5)) :=
      congrArg String.mk (append_cons_cancel hdata)
    have hblocks : (s1.map PySlice.start).map (formatFixedWidth 5) =
        (s2.map PySlice.start).map (formatFixedWidth 5) := by
      apply strJoin_fixed_width_inj 5 _ _ (by simp [hlen])
      · intro b hb
        simp only [List.map_map, List.mem_map] at hb
        obtain ⟨p, hp, rfl⟩ := hb
        exact formatFixedWidth_length (hb1 p hp)
      · intro c hc
        simp only [List.map_map, List.mem_map] at hc
        obtain ⟨p, hp, rfl⟩ := hc
        exact formatFixedWidth_length (hb2 p hp)
      · exact hjoin
    have hval := congrArg (List.map (fun s => digitsVal s.data)) hblocks
    simp only [List.map_map] at hval
    have hone : ∀ (l : List PySlice),
        l.map ((fun s => digitsVal s.data) ∘ formatFixedWidth 5 ∘ PySlice.start) =
          l.map PySlice.start := by
      intro l
      induction l with
      | nil => rfl
      | cons a t ih => simp only [List.map_cons, Function.comp,
          digitsVal_formatFixedWidth, ih]
    rw [hone, hone] at hval
    exact hval

/-- Witness for C6 at concrete inputs: slices with equal starts but
different stops name the same chunk, while a differing start changes the
name. -/
theorem claim6_witness :
    ChunkStore.chunk_name "x" [⟨3, 7⟩] = ChunkStore.chunk_name "x" [⟨3, 9⟩] ∧
    ChunkStore.chunk_name "x" [⟨3, 7⟩] ≠ ChunkStore.chunk_name "x" [⟨4, 7⟩] :=
  ⟨(claim6_chunk_name_deterministic_injective "x" [⟨3, 7⟩] [⟨3, 9⟩]).1 (by decide),
   (claim6_chunk_name_deterministic_injective "x" [⟨3, 7⟩] [⟨4, 7⟩]).2
     (by decide) (by decide) (by decide) (by decide)⟩

/-- C7 counterexample: the specification sentence, read literally, makes
every component of the identifier `/`-separated, so a two-dimensional
chunk of array `x` with start offsets 0 and 3 would be named
`x/00000/00003`; the code instead joins the offsets with underscores
into a single index field, naming it `x/00000_00003`. -/
theorem claim7_counterexample :
    ChunkStore.chunk_name "x" [⟨0, 2⟩, ⟨3, 5⟩] = "x/00000_00003" ∧
    chunkIdentifierSpecLiteral "x" [⟨0, 2⟩, ⟨3, 5⟩] = "x/00000/00003" ∧
    ChunkStore.chunk_name "x" [⟨0, 2⟩, ⟨3, 5⟩] ≠
      chunkIdentifierSpecLiteral "x" [⟨0, 2⟩, ⟨3, 5⟩] := by
  refine ⟨by decide, by decide, by decide⟩

/-- C7 amended: `chunk_name` joins the width-5 zero-padded start offsets
of each dimension range with single underscores into one index field and
appends that field to the array name with the reserved name separator
`/`. -/
theorem claim7_amended_chunk_name_format (name : String) (slices : List PySlice) :
    ChunkStore.chunk_name name slices = chunkIdentifierAmended name slices := by
  simp only [ChunkStore.chunk_name, chunkIdentifierAmended, ChunkStore.join,
    List.map_map]
  rfl

/-! ### The in-memory reference backend (`DictChunkStore`)

`DictChunkStore` keeps a dict of numpy arrays.  Its `get` is

    try:
        chunk = self.arrays[array_name][slices]
    except KeyError:
        raise OSError(...)
    if dtype != chunk.dtype:
        raise ValueError(...)
    return chunk

and its `put` is the single line

    self.get(array_name, slices, chunk.dtype)[:] = chunk

The embedding models the numpy behaviour these lines rely on: basic
slicing with slice objects never raises (out-of-range bounds are
clipped), slicing preserves the dtype, and slice assignment broadcasts
the right-hand side against the target shape, raising `ValueError`
before any element is written when the shapes are not broadcastable.
Negative and `None` slice components and `step != 1` are not used by
the chunk contract and are outside the model; element values are
modelled as integers since a dtype mismatch always raises before any
value conversion could occur. -/

/-- Array element type tag (numpy dtype). Only its identity matters:
`get`/`put` compare dtypes for equality and never convert. -/
inductive Dtype where
  | f32
  | f64
  | i32
  | i64
  | boolean
deriving DecidableEq

/-- Python exception kinds raised by `DictChunkStore.get`/`put`. -/
inductive PyError where
  | osError
  | valueError
deriving DecidableEq

/-- An N-dimensional array: shape, dtype and row-major flat data. -/
structure NDArray where
  shape : List Nat
  dtype : Dtype
  data : List Int
deriving DecidableEq

/-- Per-dimension clipped index range selected by a slice: numpy clips
`start` and `stop` of a basic slice to the dimension size. Dimensions
beyond the supplied slice sequence are selected whole. -/
def sliceSpec : List Nat → List PySlice → List (Nat × Nat)
  | [], _ => []
  | n :: ns, [] => (0, n) :: sliceSpec ns []
  | n :: ns, s :: ss => (min s.start n, min s.stop n) :: sliceSpec ns ss

/-- All multi-indices of a rectangular region, row-major. -/
def cartesianIndices : List (List Nat) → List (List Nat)
  | [] => [[]]
  | xs :: rest => xs.flatMap fun x => (cartesianIndices rest).map (x :: ·)

/-- Row-major flat offset of a multi-index inside a shape. -/
def flatIndex (shape idx : List Nat) : Nat :=
  (shape.zip idx).foldl (fun acc p => acc * p.1 + p.2) 0

/-- Element of an array at a multi-index (0 outside the stored data,
which no in-range access reaches). -/
def NDArray.att (a : NDArray) (idx : List Nat) : Int :=
  a.data.getD (flatIndex a.shape idx) 0

/-- Extraction `x[slices]` by numpy basic slicing (unit stride). -/
def sliceArray (a : NDArray) (slices : List PySlice) : NDArray :=
  let spec := sliceSpec a.shape slices
  let shape' := spec.map fun p => p.2 - p.1
  let idxs := cartesianIndices (spec.map fun p => (List.range (p.2 - p.1)).map (· + p.1))
  ⟨shape', a.dtype, idxs.map a.att⟩

/-- numpy broadcast rule for assignment `target[...] = src`: align
trailing dimensions, where each source dimension must equal the target
dimension or be 1; a source with more dimensions than the target is
accepted when all its extra leading dimensions have size 1 (numpy
assignment strips leading unit dimensions of the source). -/
def broadcastsTo (src dst : List Nat) : Bool :=
  ((src.take (src.length - dst.length)).all fun d => d == 1) &&
    ((src.reverse.zip dst.reverse).all fun p => p.1 == p.2 || p.1 == 1)

/-- Value of the broadcast source at a multi-index of the target
region: trailing dimensions align, extra leading source dimensions
(of size 1 whenever the broadcast check passed) and size-1 aligned
dimensions read index 0. -/
def broadcastGet (chunk : NDArray) (idx : List Nat) : Int :=
  let idx' := List.replicate (chunk.shape.length - idx.length) 0 ++
    idx.drop (idx.length - chunk.shape.length)
  chunk.att ((chunk.shape.zip idx').map fun p => if p.1 = 1 then 0 else p.2)

/-- Whether a multi-index of the parent lies in the selected region. -/
def insideRegion (spec : List (Nat × Nat)) (idx : List Nat) : Bool :=
  (spec.zip idx).all fun p => decide (p.1.1 ≤ p.2) && decide (p.2 < p.1.2)

/-- In-place region assignment `parent[slices] = chunk` (after the
broadcast check has succeeded). -/
def assignRegion (parent : NDArray) (slices : List PySlice) (chunk : NDArray) : NDArray :=
  let spec := sliceSpec parent.shape slices
  let data' := (cartesianIndices (parent.shape.map List.range)).map fun idx =>
    if insideRegion spec idx then
      broadcastGet chunk ((spec.zip idx).map fun p => p.2 - p.1.1)
    else parent.att idx
  ⟨parent.shape, parent.dtype, data'⟩

/-- `DictChunkStore`: a store of chunks based on a dict of arrays. -/
structure DictChunkStore where
  arrays : List (String × NDArray)
deriving DecidableEq

/-- Dict lookup `self.arrays[array_name]` as an option. -/
def DictChunkStore.lookup (store : DictChunkStore) (array_name : String) : Option NDArray :=
  (store.arrays.find? fun p => p.1 == array_name).map Prod.snd

/-- `DictChunkStore.get(array_name, slices, dtype)`: extract the chunk,
raising `OSError` for an unknown array name (the dict's `KeyError`) and
`ValueError` when the requested dtype differs from the chunk's dtype. -/
def DictChunkStore.get (store : DictChunkStore) (array_name : String)
    (slices : List PySlice) (dtype : Dtype) : Except PyError NDArray :=
  match store.lookup array_name with
  | none => .error .osError
  | some arr =>
    let chunk := sliceArray arr slices
    if dtype ≠ chunk.dtype then .error .valueError else .ok chunk

/-- `DictChunkStore.put(array_name, slices, chunk)`:
`self.get(array_name, slices, chunk.dtype)[:] = chunk`.  The `get` call
validates existence and dtype; the slice assignment then broadcasts
`chunk` against the selected region, raising `ValueError` before
touching any element when the shapes are not broadcastable.  On success
the parent array is updated in place; errors leave the store exactly as
it was. -/
def DictChunkStore.put (store : DictChunkStore) (array_name : String)
    (slices : List PySlice) (chunk : NDArray) : Except PyError DictChunkStore :=
  match store.get array_name slices chunk.dtype with
  | .error e => .error e
  | .ok target =>
    if broadcastsTo chunk.shape target.shape then
      .ok ⟨store.arrays.map fun p =>
        if p.1 == array_name then (p.1, assignRegion p.2 slices chunk) else p⟩
    else .error .valueError

deriving instance DecidableEq for Except

/-- C8: `DictChunkStore.get` raises `OSError` whenever the array name is
not among the stored arrays, and raises `ValueError` whenever the
requested dtype differs from the stored array's dtype (whatever shape
the slices select); in both cases the error is surfaced to the caller
as the result — nothing is coerced or substituted. -/
theorem claim8_get_errors (store : DictChunkStore) (name : String)
    (slices : List PySlice) (dtype : Dtype) :
    ((∀ p ∈ store.arrays, p.1 ≠ name) →
      store.get name slices dtype = .error .osError) ∧
    (∀ arr, store.lookup name = some arr → dtype ≠ arr.dtype →
      store.get name slices dtype = .error .valueError) := by
  constructor
  · intro h
    have hl : store.lookup name = none := by
      unfold DictChunkStore.lookup
      rw [List.find?_eq_none.mpr]
      · rfl
      · intro p hp
        simpa using h p hp
    unfold DictChunkStore.get
    rw [hl]
  · intro arr hl hne
    unfold DictChunkStore.get
    rw [hl]
    have hd : (sliceArray arr slices).dtype = arr.dtype := rfl
    simp only [hd]
    rw [if_pos hne]

/-- Witness for C8 on a concrete store: an unknown name raises
`OSError`; a wrong dtype on a known name raises `ValueError`. -/
theorem claim8_witness :
    DictChunkStore.get ⟨[("x", ⟨[2], Dtype.i64, [5, 6]⟩)]⟩ "y" [⟨0, 2⟩] Dtype.i64 =
      .error .osError ∧
    DictChunkStore.get ⟨[("x", ⟨[2], Dtype.i64, [5, 6]⟩)]⟩ "x" [⟨0, 2⟩] Dtype.f32 =
      .error .valueError :=
  ⟨(claim8_get_errors ⟨[("x", ⟨[2], Dtype.i64, [5, 6]⟩)]⟩ "y" [⟨0, 2⟩] Dtype.i64).1
      (by decide),
   (claim8_get_errors ⟨[("x", ⟨[2], Dtype.i64, [5, 6]⟩)]⟩ "x" [⟨0, 2⟩] Dtype.f32).2
      ⟨[2], Dtype.i64, [5, 6]⟩ (by decide) (by decide)⟩

/-- C9 counterexample: a `put` whose chunk shape disagrees with the
shape selected by the slices does NOT always fail.  numpy slice
assignment broadcasts: writing a shape-`[1]` chunk into a selected
region of shape `[2]` succeeds and fills the whole region, so the claim
"every shape disagreement fails fast with a shape-mismatch error" is
false on the code. -/
theorem claim9_counterexample :
    (sliceArray ⟨[2], Dtype.i64, [5, 6]⟩ [⟨0, 2⟩]).shape = [2] ∧
    NDArray.shape ⟨[1], Dtype.i64, [7]⟩ ≠ [2] ∧
    DictChunkStore.put ⟨[("x", ⟨[2], Dtype.i64, [5, 6]⟩)]⟩ "x" [⟨0, 2⟩]
        ⟨[1], Dtype.i64, [7]⟩ =
      .ok ⟨[("x", ⟨[2], Dtype.i64, [7, 7]⟩)]⟩ := by
  decide

/-- C9 amended: a `put` whose chunk shape is not *broadcastable* to the
shape selected by the slices fails fast with `ValueError` (numpy checks
broadcast compatibility before writing any element), and the failing
call returns no modified store, leaving every stored array exactly in
its prior state. -/
theorem claim9_amended_put_shape (store : DictChunkStore) (name : String)
    (slices : List PySlice) (chunk target : NDArray)
    (hget : store.get name slices chunk.dtype = .ok target)
    (hbc : broadcastsTo chunk.shape target.shape = false) :
    store.put name slices chunk = .error .valueError := by
  unfold DictChunkStore.put
  rw [hget]
  simp [hbc]

/-- Witness for C9 amended: a shape-`[3]` chunk cannot broadcast to the
selected shape `[2]`, so the `put` fails with `ValueError`. -/
theorem claim9_witness :
    DictChunkStore.put ⟨[("x", ⟨[2], Dtype.i64, [5, 6]⟩)]⟩ "x" [⟨0, 2⟩]
        ⟨[3], Dtype.i64, [7, 8, 9]⟩ = .error .valueError :=
  claim9_amended_put_shape ⟨[("x", ⟨[2], Dtype.i64, [5, 6]⟩)]⟩ "x" [⟨0, 2⟩]
    ⟨[3], Dtype.i64, [7, 8, 9]⟩ ⟨[2], Dtype.i64, [5, 6]⟩ (by decide) (by decide)

/-- C10: `put` validates by calling `get`, so it raises the same
`OSError` as `get` when the array name is unknown and the same
`ValueError` as `get` when the chunk's dtype differs from the stored
array's dtype; in both error cases `put` returns no modified store, so
no element of any stored array changes. -/
theorem claim10_put_errors_match_get (store : DictChunkStore) (name : String)
    (slices : List PySlice) (chunk : NDArray) :
    (store.lookup name = none →
      store.put name slices chunk = .error .osError ∧
      store.get name slices chunk.dtype = .error .osError) ∧
    (∀ arr, store.lookup name = some arr → chunk.dtype ≠ arr.dtype →
      store.put name slices chunk = .error .valueError ∧
      store.get name slices chunk.dtype = .error .valueError) := by
  constructor
  · intro hl
    have hg : store.get name slices chunk.dtype = .error .osError := by
      unfold DictChunkStore.get
      rw [hl]
    refine ⟨?_, hg⟩
    unfold DictChunkStore.put
    rw [hg]
  · intro arr hl hne
    have hg : store.get name slices chunk.dtype = .error .valueError := by
      unfold DictChunkStore.get
      rw [hl]
      have hd : (sliceArray arr slices).dtype = arr.dtype := rfl
      simp only [hd]
      rw [if_pos hne]
    refine ⟨?_, hg⟩
    unfold DictChunkStore.put
    rw [hg]

/-- Witness for C10: on a concrete store, `put` of a chunk under an
unknown name gives `OSError` like `get`, and `put` of a chunk with the
wrong dtype gives `ValueError` like `get`. -/
theorem claim10_witness :
    (DictChunkStore.put ⟨[("x", ⟨[2], Dtype.i64, [5, 6]⟩)]⟩ "y" [⟨0, 2⟩]
        ⟨[2], Dtype.i64, [7, 8]⟩ = .error .osError ∧
      DictChunkStore.get ⟨[("x", ⟨[2], Dtype.i64, [5, 6]⟩)]⟩ "y" [⟨0, 2⟩] Dtype.i64 =
        .error .osError) ∧
    (DictChunkStore.put ⟨[("x", ⟨[2], Dtype.i64, [5, 6]⟩)]⟩ "x" [⟨0, 2⟩]
        ⟨[2], Dtype.f32, [7, 8]⟩ = .error .valueError ∧
      DictChunkStore.get ⟨[("x", ⟨[2], Dtype.i64, [5, 6]⟩)]⟩ "x" [⟨0, 2⟩] Dtype.f32 =
        .error .valueError) :=
  ⟨(claim10_put_errors_match_get ⟨[("x", ⟨[2], Dtype.i64, [5, 6]⟩)]⟩ "y" [⟨0, 2⟩]
      ⟨[2], Dtype.i64, [7, 8]⟩).1 (by decide),
   (claim10_put_errors_match_get ⟨[("x", ⟨[2], Dtype.i64, [5, 6]⟩)]⟩ "x" [⟨0, 2⟩]
      ⟨[2], Dtype.f32, [7, 8]⟩).2 ⟨[2], Dtype.i64, [5, 6]⟩ (by decide) (by decide)⟩

/-! ### Dump/event selection (`katdal/categorical.py`, absent from src)

Modelled from the spec: `_single_event_per_dump(events, greedy)` of
`katdal/categorical.py` is not in the source tree — only its test
`test_dump_to_event_parsing` is.  The spec describes a per-dump contest
with a greedy tie-break policy in which greedy values "stick" to their
dump, and the in-tree test fixes the exact behaviour: on events
`[0,0,1,3,3,4,4,6,8]` with greedy flags `[1,0,0,1,1,0,0,0]` the kept
positions are `[0,2,4,6,7]` and the events array is mutated so that the
kept positions carry grid indices `[0,1,3,5,6]`.

The model is a left-to-right contest: one candidate at a time holds a
grid slot.  A greedy candidate contests the holder's slot when its own
grid index does not lie beyond it (displacing the holder — later wins)
and reserves the following slot; a non-greedy candidate is pushed to
the first slot past all reservations (and past the holder's slot), so
it either displaces a holder on the same slot or finalizes the holder
and takes a later slot.  The function yields, for each finalized
holder, its original position together with the grid index it ended on
(the in-place mutation of `events` in the Python code). -/

/-- State of the dump/event contest. -/
structure EventState where
  kept : List (Nat × Nat)
  holder : Nat
  place : Nat
  holderGreedy : Bool
  nextFree : Nat
deriving DecidableEq

/-- Grid slot taken by a new candidate with grid index `d` and greedy
flag `g`, given the holder's slot `place` and the reservation floor
`nextFree`. -/
def slotOf (place nextFree d : Nat) (g : Bool) : Nat :=
  if g then (if d ≤ place then place else d) else max (max d nextFree) place

/-- Reservation floor after placing a candidate on slot `p`: a greedy
candidate reserves the following slot. -/
def nextFreeAfter (nextFree p : Nat) (g : Bool) : Nat :=
  if g then max nextFree p + 1 else nextFree

/-- One contest step: candidate `i` with grid index `d`, greedy flag `g`. -/
def eventStep (s : EventState) (i d : Nat) (g : Bool) : EventState :=
  let p := slotOf s.place s.nextFree d g
  let nf := nextFreeAfter s.nextFree p g
  if s.place < p then
    ⟨s.kept ++ [(s.holder, s.place)], i, p, g, nf⟩
  else
    ⟨s.kept, i, s.place, g, nf⟩

/-- Run the contest over the remaining candidates. -/
def eventLoop : EventState → Nat → List (Nat × Bool) → EventState
  | s, _, [] => s
  | s, i, (d, g) :: rest => eventLoop (eventStep s i d g) (i + 1) rest

/-- Modelled from the spec: `_single_event_per_dump(events, greedy)`.
Returns the list of kept positions paired with the grid index each kept
event ends on (the Python generator yields the positions and mutates
`events` in place; pairing models both observations). `events` may
carry a final sentinel entry beyond the flags, which takes no part in
the contest. -/
def single_event_per_dump (events : List Nat) (greedy : List Bool) : List (Nat × Nat) :=
  match events.zip greedy with
  | [] => []
  | (d, g) :: rest =>
    let s := eventLoop ⟨[], 0, d, g, if g then d + 1 else 0⟩ 1 rest
    s.kept ++ [(s.holder, s.place)]

/-- Slot assigned to every candidate (the same scan as the contest, but
recording each candidate's slot instead of fighting out the winners). -/
def slotScan : Nat → Nat → Nat → List (Nat × Bool) → List (Nat × Nat)
  | _, _, _, [] => []
  | place, nextFree, i, (d, g) :: rest =>
    let p := slotOf place nextFree d g
    let nf := nextFreeAfter nextFree p g
    (i, max place p) :: slotScan (max place p) nf (i + 1) rest

/-- Slot assignment of all candidates. -/
def slotAssignment (events : List Nat) (greedy : List Bool) : List (Nat × Nat) :=
  match events.zip greedy with
  | [] => []
  | (d, g) :: rest => (0, d) :: slotScan d (if g then d + 1 else 0) 1 rest

/-- Keep the last entry of every maximal block of equal slots. -/
def keepLastOfSlotRuns : List (Nat × Nat) → List (Nat × Nat)
  | [] => []
  | [x] => [x]
  | (i, p) :: (j, q) :: rest =>
    if p < q then (i, p) :: keepLastOfSlotRuns ((j, q) :: rest)
    else keepLastOfSlotRuns ((j, q) :: rest)

theorem eventLoop_cons (s : EventState) (i d : Nat) (g : Bool) (tl : List (Nat × Bool)) :
    eventLoop s i ((d, g) :: tl) = eventLoop (eventStep s i d g) (i + 1) tl := rfl

theorem slotScan_cons (place nf i d : Nat) (g : Bool) (tl : List (Nat × Bool)) :
    slotScan place nf i ((d, g) :: tl) =
      (i, max place (slotOf place nf d g)) ::
        slotScan (max place (slotOf place nf d g))
          (nextFreeAfter nf (slotOf place nf d g) g) (i + 1) tl := rfl

theorem eventLoop_keepLast :
    ∀ (rest : List (Nat × Bool)) (s : EventState) (i : Nat),
      (eventLoop s i rest).kept ++
          [((eventLoop s i rest).holder, (eventLoop s i rest).place)] =
        s.kept ++
          keepLastOfSlotRuns ((s.holder, s.place) ::
            slotScan s.place s.nextFree i rest) := by
  intro rest
  induction rest with
  | nil => intro s i; rfl
  | cons hd tl ih =>
    intro s i
    obtain ⟨d, g⟩ := hd
    rw [eventLoop_cons, ih (eventStep s i d g) (i + 1), slotScan_cons]
    by_cases hlt : s.place < slotOf s.place s.nextFree d g
    · have hmax : max s.place (slotOf s.place s.nextFree d g) =
          slotOf s.place s.nextFree d g := by omega
      rw [hmax]
      have hstep : eventStep s i d g =
          ⟨s.kept ++ [(s.holder, s.place)], i, slotOf s.place s.nextFree d g, g,
            nextFreeAfter s.nextFree (slotOf s.place s.nextFree d g) g⟩ := by
        unfold eventStep
        simp only [hlt, if_pos]
      rw [hstep]
      show (s.kept ++ [(s.holder, s.place)]) ++ keepLastOfSlotRuns _ = _
      rw [List.append_assoc]
      congr 1
      show (s.holder, s.place) :: keepLastOfSlotRuns _ = keepLastOfSlotRuns _
      rw [keepLastOfSlotRuns]
      rw [if_pos hlt]
    · have hmax : max s.place (slotOf s.place s.nextFree d g) = s.place := by omega
      rw [hmax]
      have hstep : eventStep s i d g =
          ⟨s.kept, i, s.place, g,
            nextFreeAfter s.nextFree (slotOf s.place s.nextFree d g) g⟩ := by
        unfold eventStep
        simp only [hlt, if_neg, if_false]
      rw [hstep]
      congr 1
      show keepLastOfSlotRuns _ = keepLastOfSlotRuns ((s.holder, s.place) :: (i, s.place) :: _)
      rw [keepLastOfSlotRuns]
      rw [if_neg (by omega)]

/-- The first-wins-iff-greedy selection rule, built from the words of
the claim: within each maximal run of candidates sharing a grid index,
keep the first element of the run iff it is greedy, and otherwise the
last element of the run. -/
def firstIffGreedyRun (first last d : Nat) (gFirst : Bool) :
    List (Nat × Nat × Bool) → List Nat
  | [] => [if gFirst then first else last]
  | (j, d2, g2) :: rest =>
    if d2 = d then firstIffGreedyRun first j d gFirst rest
    else (if gFirst then first else last) :: firstIffGreedyRun j j d2 g2 rest

/-- The selection predicted by the claim's rule, over candidates
annotated with their positions. -/
def firstIffGreedySelection (events : List Nat) (greedy : List Bool) : List Nat :=
  match (events.zip greedy).enum with
  | [] => []
  | (i, d, g) :: rest => firstIffGreedyRun i i d g rest

/-- C1 counterexample: on the reference input of the in-tree test, the
claimed rule predicts kept positions `[0, 2, 3, 6, 7]` (the run of
positions 3 and 4 shares grid index 3 and its first element is greedy,
so the rule keeps position 3), but the selection keeps `[0, 2, 4, 6, 7]`
— position 3 is dropped in favour of the later greedy candidate at
position 4. -/
theorem claim1_counterexample :
    firstIffGreedySelection [0, 0, 1, 3, 3, 4, 4, 6, 8]
        [true, false, false, true, true, false, false, false] = [0, 2, 3, 6, 7] ∧
    (single_event_per_dump [0, 0, 1, 3, 3, 4, 4, 6, 8]
        [true, false, false, true, true, false, false, false]).map Prod.fst =
      [0, 2, 4, 6, 7] ∧
    3 ∉ (single_event_per_dump [0, 0, 1, 3, 3, 4, 4, 6, 8]
        [true, false, false, true, true, false, false, false]).map Prod.fst := by
  decide

/-- C1 amended: the selection of `_single_event_per_dump` keeps, within
each maximal block of candidates assigned the same effective grid slot,
the LAST candidate of the block, where the effective slot of a greedy
candidate is the contested slot itself (or its own grid index when that
lies beyond) with the following slot reserved, and the effective slot of
a non-greedy candidate is its grid index pushed past all reserved slots.
In particular, within a run sharing a grid index the last greedy
candidate (not the first) wins when greedy candidates are present, and
otherwise the last candidate wins its slot. -/
theorem claim1_amended_selection (events : List Nat) (greedy : List Bool) :
    single_event_per_dump events greedy =
      keepLastOfSlotRuns (slotAssignment events greedy) := by
  unfold single_event_per_dump slotAssignment
  cases hz : events.zip greedy with
  | nil => rfl
  | cons hd rest =>
    obtain ⟨d, g⟩ := hd
    exact eventLoop_keepLast rest ⟨[], 0, d, g, if g then d + 1 else 0⟩ 1

/-- C2: the reference scenario of the in-tree test.  On values
`A..H` with candidate grid indices `[0,0,1,3,3,4,4,6,8]` and greedy
flags `[1,0,0,1,1,0,0,0]`, the selection keeps positions `[0,2,4,6,7]`;
indexing the values by the kept positions yields `A,C,E,G,H`, and the
(in-place updated) events array at the kept positions yields grid
indices `[0,1,3,5,6]`. -/
theorem claim2_reference_scenario :
    (single_event_per_dump [0, 0, 1, 3, 3, 4, 4, 6, 8]
        [true, false, false, true, true, false, false, false]).map Prod.fst =
      [0, 2, 4, 6, 7] ∧
    (single_event_per_dump [0, 0, 1, 3, 3, 4, 4, 6, 8]
        [true, false, false, true, true, false, false, false]).map
        (fun q => ['A', 'B', 'C', 'D', 'E', 'F', 'G', 'H'].getD q.1 ' ') =
      ['A', 'C', 'E', 'G', 'H'] ∧
    (single_event_per_dump [0, 0, 1, 3, 3, 4, 4, 6, 8]
        [true, false, false, true, true, false, false, false]).map Prod.snd =
      [0, 1, 3, 5, 6] := by
  decide

/-! ### Categorical timelines (`katdal/categorical.py`, absent from src) -/

/-- An event timeline: ordered distinct values, strictly increasing
sample-grid boundaries (the last entry is the exclusive grid length),
and one index into `unique_values` per segment. -/
structure CategoricalData (α : Type) where
  unique_values : List α
  events : List Nat
  indices : List Nat
deriving DecidableEq

/-- Deduplicate against an accumulator of already seen values. -/
def dedupSeen {α : Type} [DecidableEq α] (seen : List α) : List α → List α
  | [] => []
  | a :: rest => if a ∈ seen then dedupSeen seen rest else a :: dedupSeen (a :: seen) rest

/-- Deduplicate, keeping the first occurrence of each value. -/
def dedupFirstSeen {α : Type} [DecidableEq α] (l : List α) : List α :=
  dedupSeen [] l

/-- Drop entries equal to the previous surviving value. -/
def rleTail {α : Type} [DecidableEq α] (prev : α) : List (α × Nat) → List (α × Nat)
  | [] => []
  | (w, q) :: rest => if w = prev then rleTail prev rest else (w, q) :: rleTail w rest

/-- Collapse consecutive equal values into run-length segments, keeping
the first boundary of each run. -/
def rleCollapse {α : Type} [DecidableEq α] : List (α × Nat) → List (α × Nat)
  | [] => []
  | x :: rest => x :: rleTail x.1 rest

/-- Nearest-integer rounding of the ratio `a / b` for `b > 0`:
`⌊a / b + 1/2⌋` computed on integers. -/
def roundDiv (a b : ℤ) : ℤ := Int.fdiv (2 * a + b) (2 * b)

/-- Modelled from the spec: `sensor_to_categorical(sensor_timestamps,
sensor_values, dump_midtimes, dump_period, greedy_values,
initial_value)` of `katdal/categorical.py`, which is not in the source
tree — only its test `test_categorical_sensor_creation` is.  Each raw
sample's timestamp is mapped to the nearest dump (grid index
`round((t - dump_times[0]) / dump_period)`), clipped at the top of the
grid; samples falling before the grid are discarded (the spec's
clipping of such samples into dump 0 would contradict the expected
timeline of the in-tree test, whose pre-grid `stop` sample leaves no
trace).  Samples landing on the same dump are resolved by the greedy
contest of `single_event_per_dump`; leading dumps before the first
surviving event take `initial_value` when supplied and otherwise the
first event's value extended backward; the per-dump winners are then
run-length collapsed into the `events`/`indices`/`unique_values`
triple.  Times are integers in a fixed decimal unit (milliseconds for
the reference scenario, whose decimal literals are exact in that unit);
the grid mapping `round((t - dump_times[0]) / dump_period)` is
invariant under the choice of unit, and no rounding operation of the
reference scenario lands on a tie, so this agrees with the float
computation of the code. -/
def sensor_to_categorical {α : Type} [DecidableEq α]
    (timestamps : List ℤ) (values : List α)
    (dump_times : List ℤ) (dump_period : ℤ)
    (greedy_values : List α) (initial_value : Option α) : CategoricalData α :=
  let n := dump_times.length
  let t0 := dump_times.headD 0
  let cands : List (Nat × α) := (timestamps.zip values).filterMap fun tv =>
    let z : ℤ := roundDiv (tv.1 - t0) dump_period
    if z < 0 then none else some (min z.toNat (n - 1), tv.2)
  let kept := single_event_per_dump (cands.map Prod.fst)
    (cands.map fun c => decide (c.2 ∈ greedy_values))
  let kvs0 : List (α × Nat) := kept.filterMap fun ip =>
    (cands.get? ip.1).map fun c => (c.2, ip.2)
  let kvs1 := kvs0.filter fun vp => vp.2 < n
  let kvs2 := match kvs1, initial_value with
    | [], some iv => [(iv, 0)]
    | [], none => []
    | (v, p) :: rest, some iv =>
      if 0 < p then (iv, 0) :: (v, p) :: rest else (v, p) :: rest
    | (v, p) :: rest, none => (v, 0) :: rest
  let segs := rleCollapse kvs2
  let uniq := dedupFirstSeen (segs.map Prod.fst)
  { unique_values := uniq,
    events := segs.map Prod.snd ++ [n],
    indices := segs.map fun vp => uniq.findIdx fun b => decide (b = vp.1) }

/-- C3: the timeline-build reference scenario of the in-tree test.
Timestamps `[-363.784, 2.467, 8.839, 8.867, 15.924, 48.925, 54.897,
88.982]` with values `[stop, slew, track, slew, track, slew, track,
slew]`, dump midtimes `4, 12, ..., 92` (grid start 4, period 8, length
12), greedy values `(slew, stop)` and initial value `slew` produce
`unique_values = [slew, track]`, `events = [0, 2, 6, 7, 11, 12]` and
`indices = [0, 1, 0, 1, 0]`. -/
theorem claim3_sensor_to_categorical_scenario :
    sensor_to_categorical
      [-363784, 2467, 8839, 8867, 15924, 48925, 54897, 88982]
      ["stop", "slew", "track", "slew", "track", "slew", "track", "slew"]
      [4000, 12000, 20000, 28000, 36000, 44000, 52000, 60000, 68000,
        76000, 84000, 92000] 8000
      ["slew", "stop"] (some "slew") =
    ⟨["slew", "track"], [0, 2, 6, 7, 11, 12], [0, 1, 0, 1, 0]⟩ := by
  decide

/-! ### EventTimeline operations (`CategoricalData`, absent from src)

The timeline is viewed as its list of segment pairs
`events.zip indices = [(start, value-index), ...]` together with the
final sentinel `events[-1]` (the exclusive grid length).  `value_at`,
`remove` and `align` below are modelled from the spec's §4.2. -/

/-- Segment pairs `(start, value-index)` of a timeline (the zip stops
before the final sentinel boundary). -/
def CategoricalData.segPairs {α : Type} (cd : CategoricalData α) : List (Nat × Nat) :=
  cd.events.zip cd.indices

/-- The final sentinel boundary `events[-1]` (exclusive grid length). -/
def CategoricalData.endEvent {α : Type} (cd : CategoricalData α) : Nat :=
  cd.events.getLastD 0

/-- Value over a pair list: the segment containing `t` holds from its
start up to the next start (or the sentinel for the last segment). -/
def pairValueAt {α : Type} (uv : List α) (endE : Nat) :
    List (Nat × Nat) → Nat → Option α
  | [], _ => none
  | [(s, k)], t => if s ≤ t ∧ t < endE then uv.get? k else none
  | (s, k) :: (s2, k2) :: rest, t =>
    if s ≤ t ∧ t < s2 then uv.get? k else pairValueAt uv endE ((s2, k2) :: rest) t

/-- Modelled from the spec: `value_at(sample_index)` — binary-search the
events for the containing segment and return its value; `none` outside
`[events[0], events[-1])`. -/
def CategoricalData.valueAt {α : Type} (cd : CategoricalData α) (t : Nat) : Option α :=
  pairValueAt cd.unique_values cd.endEvent cd.segPairs t

/-- Last pair in list order whose start is at most `t`. -/
def lastLE : List (Nat × Nat) → Nat → Option (Nat × Nat)
  | [], _ => none
  | p :: rest, t =>
    match lastLE rest t with
    | some q => some q
    | none => if p.1 ≤ t then some p else none

/-- Segment deletion for `remove`: drop every pair whose value index is
bad; a leading run of bad pairs is instead absorbed into the following
segment, which inherits the first start.  `hasPred` records whether a
kept predecessor exists. -/
def removeGo (isBad : Nat → Bool) : Bool → List (Nat × Nat) → List (Nat × Nat)
  | _, [] => []
  | hasPred, (s, k) :: rest =>
    if isBad k then
      if hasPred then removeGo isBad true rest
      else
        match removeGo isBad false rest with
        | [] => []
        | (_, k2) :: tail => (s, k2) :: tail
    else (s, k) :: removeGo isBad true rest

/-- Merge runs of adjacent segments holding the same value index,
keeping the first boundary of each run (no redundant adjacent duplicate
values ever persist). -/
def mergeAdjTail (prevK : Nat) : List (Nat × Nat) → List (Nat × Nat)
  | [] => []
  | (s, k) :: rest =>
    if k = prevK then mergeAdjTail prevK rest else (s, k) :: mergeAdjTail k rest

/-- Merge adjacent equal-valued segments of a pair list. -/
def mergeAdjacent : List (Nat × Nat) → List (Nat × Nat)
  | [] => []
  | x :: rest => x :: mergeAdjTail x.2 rest

/-- Modelled from the spec: `remove(value)` — delete every segment whose
value equals `value`; each removed segment's sample range is absorbed
into the preceding segment (or, if it is the first segment, into the
following one); adjacent segments left holding the same value are
merged; a no-op if the timeline would become empty of values other than
`value`. -/
def CategoricalData.remove {α : Type} [DecidableEq α] (v : α)
    (cd : CategoricalData α) : CategoricalData α :=
  let pairs := cd.segPairs
  let isBad : Nat → Bool := fun k => decide (cd.unique_values.get? k = some v)
  if pairs.all fun p => isBad p.2 then cd
  else
    let merged := mergeAdjacent (removeGo isBad false pairs)
    { cd with events := merged.map Prod.fst ++ [cd.endEvent],
              indices := merged.map Prod.snd }

/-- Structural invariants of a timeline (§3 of the spec): strictly
increasing events, one value index per segment, indices in range, no
two adjacent segments sharing a value, distinct unique values. -/
def CategoricalData.WellFormed {α : Type} (cd : CategoricalData α) : Prop :=
  cd.events.Pairwise (· < ·) ∧
  cd.events.length = cd.indices.length + 1 ∧
  (∀ k ∈ cd.indices, k < cd.unique_values.length) ∧
  cd.indices.Chain' (· ≠ ·) ∧
  cd.unique_values.Nodup

/-- The value at `t` predicted by the spec's absorption rule for
`remove`: the value of the containing segment when that segment
survives, otherwise the value of the nearest preceding surviving
segment, and for a removed leading run the value of the following
surviving segment (whose range then starts at the original first
boundary). -/
def absorbedValueRef {α : Type} [DecidableEq α] (uv : List α) (v : α)
    (ps : List (Nat × Nat)) (t : Nat) : Option α :=
  let good := ps.filter fun p => !(decide (uv.get? p.2 = some v))
  match lastLE good t with
  | some q => uv.get? q.2
  | none =>
    match ps.head?, good.head? with
    | some h, some g => if h.1 ≤ t then uv.get? g.2 else none
    | _, _ => none

/-! Supporting lemmas for the timeline operations. -/

theorem lastLE_mem_le {ps : List (Nat × Nat)} {t : Nat} {q : Nat × Nat}
    (h : lastLE ps t = some q) : q ∈ ps ∧ q.1 ≤ t := by
  induction ps with
  | nil => simp [lastLE] at h
  | cons p rest ih =>
    rw [lastLE] at h
    cases hr : lastLE rest t with
    | some q2 =>
      rw [hr] at h
      obtain rfl : q2 = q := by simpa using h
      obtain ⟨hm, hle⟩ := ih hr
      exact ⟨List.mem_cons_of_mem p hm, hle⟩
    | none =>
      rw [hr] at h
      by_cases hp : p.1 ≤ t
      · rw [if_pos hp] at h
        obtain rfl : p = q := by simpa using h
        exact ⟨List.mem_cons_self p rest, hp⟩
      · rw [if_neg hp] at h
        simp at h

theorem removeGo_true_eq_filter (isBad : Nat → Bool) :
    ∀ ps : List (Nat × Nat),
      removeGo isBad true ps = ps.filter fun p => !(isBad p.2) := by
  intro ps
  induction ps with
  | nil => rfl
  | cons p rest ih =>
    obtain ⟨s, k⟩ := p
    rw [removeGo]
    by_cases hb : isBad k
    · simp [hb, List.filter, ih]
    · simp [hb, List.filter, ih]

theorem removeGo_false_nil (isBad : Nat → Bool) :
    ∀ ps : List (Nat × Nat),
      (ps.filter fun p => !(isBad p.2)) = [] → removeGo isBad false ps = [] := by
  intro ps
  induction ps with
  | nil => intro _; rfl
  | cons p rest ih =>
    intro h
    obtain ⟨s, k⟩ := p
    have hb : isBad k = true := by
      by_contra hb
      simp only [Bool.not_eq_true] at hb
      simp [List.filter, hb] at h
    have hrest : (rest.filter fun p => !(isBad p.2)) = [] := by
      simpa [List.filter, hb] using h
    rw [removeGo]
    simp [hb, ih hrest]

theorem removeGo_false_closed (isBad : Nat → Bool) :
    ∀ (ps : List (Nat × Nat)) (g : Nat × Nat) (gs : List (Nat × Nat)),
      (ps.filter fun p => !(isBad p.2)) = g :: gs →
      removeGo isBad false ps = ((ps.headD g).1, g.2) :: gs := by
  intro ps
  induction ps with
  | nil => intro g gs hf; simp at hf
  | cons p rest ih =>
    intro g gs hf
    obtain ⟨s, k⟩ := p
    by_cases hb : isBad k
    · have hrest : (rest.filter fun p => !(isBad p.2)) = g :: gs := by
        simpa [List.filter, hb] using hf
      rw [removeGo]
      simp only [hb, if_true]
      rw [if_neg (by simp), ih g gs hrest]
      cases rest with
      | nil => simp [List.filter] at hrest
      | cons r rest2 => rfl
    · have hf2 : (s, k) = g ∧ (rest.filter fun p => !(isBad p.2)) = gs := by
        have hc : (s, k) :: (rest.filter fun p => !(isBad p.2)) = g :: gs := by
          simpa [List.filter, hb] using hf
        exact ⟨by simpa using congrArg List.head? hc,
               by simpa using congrArg List.tail hc⟩
      rw [removeGo]
      simp only [hb, if_false, Bool.false_eq_true]
      rw [removeGo_true_eq_filter, hf2.2]
      rw [← hf2.1]
      rfl

theorem zip_map_append (l : List (Nat × Nat)) (x : Nat) :
    (l.map Prod.fst ++ [x]).zip (l.map Prod.snd) = l := by
  induction l with
  | nil => rfl
  | cons p rest ih => simp [ih]

theorem mergeAdjTail_sublist (prevK : Nat) :
    ∀ ps : List (Nat × Nat), (mergeAdjTail prevK ps).Sublist ps := by
  intro ps
  induction ps generalizing prevK with
  | nil => exact List.Sublist.refl []
  | cons p rest ih =>
    obtain ⟨s, k⟩ := p
    rw [mergeAdjTail]
    by_cases hk : k = prevK
    · rw [if_pos hk]
      exact List.Sublist.cons (s, k) (ih prevK)
    · rw [if_neg hk]
      exact List.Sublist.cons₂ (s, k) (ih k)

theorem mergeAdjacent_sublist :
    ∀ ps : List (Nat × Nat), (mergeAdjacent ps).Sublist ps := by
  intro ps
  cases ps with
  | nil => exact List.Sublist.refl []
  | cons x rest => exact List.Sublist.cons₂ x (mergeAdjTail_sublist x.2 rest)

theorem lastLE_eq_none {ps : List (Nat × Nat)} {t : Nat}
    (h : lastLE ps t = none) : ∀ p ∈ ps, t < p.1 := by
  induction ps with
  | nil => intro p hp; simp at hp
  | cons q rest ih =>
    rw [lastLE] at h
    cases hr : lastLE rest t with
    | some q2 => rw [hr] at h; simp at h
    | none =>
      rw [hr] at h
      intro p hp
      rcases List.mem_cons.mp hp with rfl | hmem
      · by_cases hq : p.1 ≤ t
        · rw [if_pos hq] at h; simp at h
        · omega
      · exact ih hr p hmem

theorem lastLE_cons (p : Nat × Nat) (rest : List (Nat × Nat)) (t : Nat) :
    lastLE (p :: rest) t =
      match lastLE rest t with
      | some q => some q
      | none => if p.1 ≤ t then some p else none := rfl

theorem pairValueAt_eq_lastLE {α : Type} (uv : List α) (endE : Nat) :
    ∀ ps : List (Nat × Nat), ps.Pairwise (fun p q => p.1 < q.1) →
      ∀ t, t < endE →
        pairValueAt uv endE ps t = (lastLE ps t).bind fun p => uv.get? p.2 := by
  intro ps
  induction ps with
  | nil => intro _ t _; rfl
  | cons p rest ih =>
    intro hpw t ht
    obtain ⟨s, k⟩ := p
    cases rest with
    | nil =>
      show (if s ≤ t ∧ t < endE then uv.get? k else none) = _
      rw [lastLE_cons]
      show _ = ((if s ≤ t then some (s, k) else none).bind fun p => uv.get? p.2)
      by_cases hs : s ≤ t
      · rw [if_pos ⟨hs, ht⟩, if_pos hs]; rfl
      · rw [if_neg (by tauto), if_neg hs]; rfl
    | cons p2 rest2 =>
      obtain ⟨s2, k2⟩ := p2
      have hpw2 : ((s2, k2) :: rest2).Pairwise (fun p q => p.1 < q.1) := hpw.tail
      have hlt : s < s2 := (List.pairwise_cons.mp hpw).1 (s2, k2) (by simp)
      have hall : ∀ q ∈ (s2, k2) :: rest2, s < q.1 :=
        (List.pairwise_cons.mp hpw).1
      show (if s ≤ t ∧ t < s2 then uv.get? k
            else pairValueAt uv endE ((s2, k2) :: rest2) t) = _
      rw [lastLE_cons]
      by_cases hc : s ≤ t ∧ t < s2
      · rw [if_pos hc]
        have hnone : lastLE ((s2, k2) :: rest2) t = none := by
          cases hl : lastLE ((s2, k2) :: rest2) t with
          | none => rfl
          | some q =>
            obtain ⟨hm, hle⟩ := lastLE_mem_le hl
            have h1 : s2 ≤ q.1 := by
              rcases List.mem_cons.mp hm with rfl | hmem
              · omega
              · exact le_of_lt ((List.pairwise_cons.mp hpw2).1 q hmem)
            omega
        rw [hnone]
        show _ = ((if s ≤ t then some (s, k) else none).bind fun p => uv.get? p.2)
        rw [if_pos hc.1]
        rfl
      · rw [if_neg hc, ih hpw2 t ht]
        cases hl : lastLE ((s2, k2) :: rest2) t with
        | some q => rfl
        | none =>
          have hnle : ¬ s ≤ t := by
            intro hs
            have ht2 : ¬ t < s2 := fun h2 => hc ⟨hs, h2⟩
            have hx := lastLE_eq_none hl (s2, k2) (by simp)
            exact ht2 (by simpa using hx)
          rw [if_neg hnle]

theorem mergeAdjTail_lastLE_getD :
    ∀ (rest : List (Nat × Nat)) (prevK t : Nat),
      rest.Pairwise (fun p q => p.1 < q.1) →
      ((lastLE (mergeAdjTail prevK rest) t).map Prod.snd).getD prevK =
        ((lastLE rest t).map Prod.snd).getD prevK := by
  intro rest
  induction rest with
  | nil => intro prevK t _; rfl
  | cons p rest2 ih =>
    intro prevK t hpw
    obtain ⟨s, k⟩ := p
    have hall : ∀ q ∈ rest2, s < q.1 := fun q hq =>
      (List.pairwise_cons.mp hpw).1 q hq
    have hpw2 : rest2.Pairwise (fun p q => p.1 < q.1) := hpw.tail
    rw [mergeAdjTail]
    by_cases hk : k = prevK
    · rw [if_pos hk, ih prevK t hpw2, lastLE_cons]
      cases hr : lastLE rest2 t with
      | some q => rfl
      | none =>
        by_cases hs : s ≤ t
        · rw [if_pos hs]
          subst hk
          rfl
        · rw [if_neg hs]
    · rw [if_neg hk, lastLE_cons, lastLE_cons]
      have hmerge := ih k t hpw2
      cases hr : lastLE rest2 t with
      | some q =>
        cases hm : lastLE (mergeAdjTail k rest2) t with
        | some q2 =>
          rw [hr, hm] at hmerge
          simpa using hmerge
        | none =>
          rw [hr, hm] at hmerge
          have hkq : k = q.2 := by simpa using hmerge
          have hqm := lastLE_mem_le hr
          have hst : s ≤ t := le_of_lt (lt_of_lt_of_le (hall q hqm.1) hqm.2)
          rw [if_pos hst]
          simp [hkq]
      | none =>
        have hm : lastLE (mergeAdjTail k rest2) t = none := by
          cases hm2 : lastLE (mergeAdjTail k rest2) t with
          | none => rfl
          | some q2 =>
            obtain ⟨hmem, hle⟩ := lastLE_mem_le hm2
            have : q2 ∈ rest2 := (mergeAdjTail_sublist k rest2).mem hmem
            have := lastLE_eq_none hr q2 this
            omega
        rw [hm]

theorem mergeAdjacent_lastLE_snd :
    ∀ ps : List (Nat × Nat), ps.Pairwise (fun p q => p.1 < q.1) → ∀ t,
      (lastLE (mergeAdjacent ps) t).map Prod.snd =
        (lastLE ps t).map Prod.snd := by
  intro ps hpw t
  cases ps with
  | nil => rfl
  | cons x rest =>
    have hall : ∀ q ∈ rest, x.1 < q.1 := fun q hq =>
      (List.pairwise_cons.mp hpw).1 q hq
    have hpw2 : rest.Pairwise (fun p q => p.1 < q.1) := hpw.tail
    have hgetD := mergeAdjTail_lastLE_getD rest x.2 t hpw2
    show (lastLE (x :: mergeAdjTail x.2 rest) t).map Prod.snd = _
    rw [lastLE_cons, lastLE_cons]
    cases hr : lastLE rest t with
    | some q =>
      cases hm : lastLE (mergeAdjTail x.2 rest) t with
      | some q2 =>
        rw [hr, hm] at hgetD
        simpa using hgetD
      | none =>
        rw [hr, hm] at hgetD
        have hkq : x.2 = q.2 := by simpa using hgetD
        have hqm := lastLE_mem_le hr
        have hst : x.1 ≤ t := le_of_lt (lt_of_lt_of_le (hall q hqm.1) hqm.2)
        rw [if_pos hst]
        simp [hkq]
    | none =>
      have hm : lastLE (mergeAdjTail x.2 rest) t = none := by
        cases hm2 : lastLE (mergeAdjTail x.2 rest) t with
        | none => rfl
        | some q2 =>
          obtain ⟨hmem, hle⟩ := lastLE_mem_le hm2
          have hq2 : q2 ∈ rest := (mergeAdjTail_sublist x.2 rest).mem hmem
          have := lastLE_eq_none hr q2 hq2
          omega
      rw [hm]

theorem pairwise_zip_left {R : Nat → Nat → Prop} :
    ∀ (l1 : List Nat) (l2 : List Nat), l1.Pairwise R →
      (l1.zip l2).Pairwise (fun p q : Nat × Nat => R p.1 q.1) := by
  intro l1
  induction l1 with
  | nil => intro l2 _; simp
  | cons a l1' ih =>
    intro l2 hpw
    cases l2 with
    | nil => simp
    | cons b l2' =>
      rw [List.zip_cons_cons, List.pairwise_cons]
      constructor
      · intro q hq
        have := List.of_mem_zip hq
        exact (List.pairwise_cons.mp hpw).1 q.1 this.1
      · exact ih l2' hpw.tail

theorem bind_snd_congr {α : Type} (uv : List α) {o1 o2 : Option (Nat × Nat)}
    (h : o1.map Prod.snd = o2.map Prod.snd) :
    (o1.bind fun p => uv.get? p.2) = o2.bind fun p => uv.get? p.2 := by
  cases o1 with
  | none =>
    cases o2 with
    | none => rfl
    | some q => simp at h
  | some p =>
    cases o2 with
    | none => simp at h
    | some q =>
      have : p.2 = q.2 := by simpa using h
      simp [this]

theorem getLastD_append_singleton (l : List Nat) (x d : Nat) :
    (l ++ [x]).getLastD d = x := by
  induction l generalizing d with
  | nil => rfl
  | cons a l' ih =>
    rw [List.cons_append, List.getLastD_cons]
    exact ih a

/-- C5: for every well-formed timeline containing at least one value
other than `v`, after `remove v` no segment maps to `v`, the first and
final boundaries (hence the total coverage `events[-1] - events[0]`)
are unchanged, and every sample of a removed segment's range reads the
value of the nearest preceding surviving segment — its absorbing
predecessor — while a removed leading run reads the following
surviving segment's value (absorption into the following segment). -/
theorem claim5_remove {α : Type} [DecidableEq α] (cd : CategoricalData α) (v : α)
    (hwf : cd.WellFormed)
    (hgood : ∃ k ∈ cd.indices, cd.unique_values.get? k ≠ some v) :
    (∀ k ∈ (cd.remove v).indices, cd.unique_values.get? k ≠ some v) ∧
    ((cd.remove v).events.headD 0 = cd.events.headD 0 ∧
      (cd.remove v).endEvent = cd.endEvent) ∧
    (∀ t, t < cd.endEvent →
      (cd.remove v).valueAt t =
        absorbedValueRef cd.unique_values v cd.segPairs t) := by
  obtain ⟨hev, hlen, _, _, _⟩ := hwf
  obtain ⟨k0, hk0m, hk0⟩ := hgood
  set uv := cd.unique_values with huv
  set isBad : Nat → Bool := fun k => decide (uv.get? k = some v) with hisBad
  set pairs := cd.segPairs with hpairs
  have hsnd : pairs.map Prod.snd = cd.indices :=
    List.map_snd_zip cd.events cd.indices (by omega)
  have hk0p : ∃ p ∈ pairs, isBad p.2 = false := by
    have : k0 ∈ pairs.map Prod.snd := by rw [hsnd]; exact hk0m
    obtain ⟨p, hp, hpk⟩ := List.mem_map.mp this
    refine ⟨p, hp, ?_⟩
    simp only [hisBad, hpk]
    exact decide_eq_false hk0
  obtain ⟨p0, hp0m, hp0⟩ := hk0p
  have hguard : ¬ (pairs.all fun p => isBad p.2) = true := by
    rw [List.all_eq_true]
    push_neg
    exact ⟨p0, hp0m, by simp [hp0]⟩
  have hfilter_ne : (pairs.filter fun p => !(isBad p.2)) ≠ [] := by
    intro hnil
    have := List.filter_eq_nil_iff.mp hnil p0 hp0m
    simp [hp0] at this
  obtain ⟨g, gs, hggs⟩ : ∃ g gs, (pairs.filter fun p => !(isBad p.2)) = g :: gs := by
    cases hc : pairs.filter fun p => !(isBad p.2) with
    | nil => exact absurd hc hfilter_ne
    | cons g gs => exact ⟨g, gs, rfl⟩
  have hpairs_ne : pairs ≠ [] := by
    intro hnil
    rw [hnil] at hp0m
    simp at hp0m
  have hremoved : removeGo isBad false pairs = ((pairs.headD g).1, g.2) :: gs :=
    removeGo_false_closed isBad pairs g gs hggs
  have hpw : pairs.Pairwise (fun p q : Nat × Nat => p.1 < q.1) :=
    pairwise_zip_left cd.events cd.indices hev
  have hgood_mem : ∀ q ∈ g :: gs, isBad q.2 = false := by
    intro q hq
    have : q ∈ pairs.filter fun p => !(isBad p.2) := by rw [hggs]; exact hq
    have := (List.mem_filter.mp this).2
    simpa using this
  have hsubp : ∀ q ∈ g :: gs, q ∈ pairs := by
    intro q hq
    have : q ∈ pairs.filter fun p => !(isBad p.2) := by rw [hggs]; exact hq
    exact (List.mem_filter.mp this).1
  have hhead_le : (pairs.headD g).1 ≤ g.1 := by
    cases hp : pairs with
    | nil => exact absurd hp hpairs_ne
    | cons ph prest =>
      have hg : g ∈ ph :: prest := by rw [← hp]; exact hsubp g (by simp)
      rcases List.mem_cons.mp hg with rfl | hgm
      · simp [hp]
      · have := (List.pairwise_cons.mp (hp ▸ hpw)).1 g hgm
        simp [hp]
        omega
  have hremoved_pw :
      (removeGo isBad false pairs).Pairwise (fun p q : Nat × Nat => p.1 < q.1) := by
    rw [hremoved]
    have hfpw : (g :: gs).Pairwise (fun p q : Nat × Nat => p.1 < q.1) := by
      rw [← hggs]
      exact hpw.sublist (List.filter_sublist pairs)
    rw [List.pairwise_cons]
    refine ⟨?_, hfpw.tail⟩
    intro q hq
    have := (List.pairwise_cons.mp hfpw).1 q hq
    omega
  set removed := removeGo isBad false pairs with hrm
  set merged := mergeAdjacent removed with hmg
  have hmerged_pw : merged.Pairwise (fun p q : Nat × Nat => p.1 < q.1) :=
    hremoved_pw.sublist (mergeAdjacent_sublist removed)
  have hremove_eq : cd.remove v =
      { cd with events := merged.map Prod.fst ++ [cd.endEvent],
                indices := merged.map Prod.snd } := by
    rw [CategoricalData.remove]
    rw [if_neg hguard]
  refine ⟨?_, ⟨?_, ?_⟩, ?_⟩
  · -- no segment maps to v
    intro k hk
    rw [hremove_eq] at hk
    simp only [List.mem_map] at hk
    obtain ⟨q, hqm, rfl⟩ := hk
    have hqrm : q ∈ removed := (mergeAdjacent_sublist removed).mem hqm
    rw [hremoved] at hqrm
    have : isBad q.2 = false := by
      rcases List.mem_cons.mp hqrm with rfl | hmem
      · exact hgood_mem g (by simp)
      · exact hgood_mem q (by simp [hmem])
    simpa [hisBad] using this
  · -- first boundary unchanged
    rw [hremove_eq]
    show ((merged.map Prod.fst) ++ [cd.endEvent]).headD 0 = cd.events.headD 0
    have hmerged_shape : merged = ((pairs.headD g).1, g.2) ::
        mergeAdjTail g.2 gs := by
      rw [hmg, hremoved]
      rfl
    rw [hmerged_shape]
    cases hp : cd.events with
    | nil =>
      exfalso
      apply hpairs_ne
      simp [hpairs, CategoricalData.segPairs, hp]
    | cons e0 erest =>
      have hind : ∃ i0 irest, cd.indices = i0 :: irest := by
        cases hi : cd.indices with
        | nil =>
          exfalso
          rw [hi] at hk0m
          simp at hk0m
        | cons i0 irest => exact ⟨i0, irest, rfl⟩
      obtain ⟨i0, irest, hi⟩ := hind
      have : pairs = (e0, i0) :: erest.zip irest := by
        rw [hpairs, CategoricalData.segPairs, hp, hi]
        rfl
      simp [this]
  · -- final boundary unchanged
    rw [hremove_eq]
    show ((merged.map Prod.fst) ++ [cd.endEvent]).getLastD 0 = cd.endEvent
    exact getLastD_append_singleton _ _ _
  · -- absorption
    intro t ht
    have hvAt : (cd.remove v).valueAt t =
        pairValueAt uv cd.endEvent merged t := by
      rw [hremove_eq]
      show pairValueAt uv
        (((merged.map Prod.fst) ++ [cd.endEvent]).getLastD 0)
        (((merged.map Prod.fst) ++ [cd.endEvent]).zip (merged.map Prod.snd)) t = _
      rw [getLastD_append_singleton, zip_map_append]
    rw [hvAt, pairValueAt_eq_lastLE uv cd.endEvent merged hmerged_pw t ht]
    have hlsnd := mergeAdjacent_lastLE_snd removed hremoved_pw t
    rw [← hmg] at hlsnd
    rw [bind_snd_congr uv hlsnd]
    -- compute both sides on the closed form of the removed list
    rw [hremoved]
    rw [absorbedValueRef]
    show ((lastLE (((pairs.headD g).1, g.2) :: gs) t).bind fun p => uv.get? p.2) = _
    rw [lastLE_cons]
    rw [hggs, lastLE_cons]
    have hph : pairs.head? = some (pairs.headD g) := by
      cases hp : pairs with
      | nil => exact absurd hp hpairs_ne
      | cons a b => rfl
    rw [hph]
    cases hgl : lastLE gs t with
    | some q => rfl
    | none =>
      show ((if (pairs.headD g).1 ≤ t then some ((pairs.headD g).1, g.2)
             else none).bind fun p => uv.get? p.2) = _
      by_cases hgle : g.1 ≤ t
      · rw [if_pos hgle, if_pos (le_trans hhead_le hgle)]
        rfl
      · rw [if_neg hgle]
        show _ = (match (none : Option (Nat × Nat)) with
          | some q => uv.get? q.2
          | none =>
            match some (pairs.headD g), (g :: gs).head? with
            | some h, some g2 => if h.1 ≤ t then uv.get? g2.2 else none
            | _, _ => none)
        show ((if (pairs.headD g).1 ≤ t then some ((pairs.headD g).1, g.2)
               else none).bind fun p => uv.get? p.2) =
          if (pairs.headD g).1 ≤ t then uv.get? (((g :: gs).headD g).2) else none
        by_cases hhle : (pairs.headD g).1 ≤ t
        · rw [if_pos hhle, if_pos hhle]
          rfl
        · rw [if_neg hhle, if_neg hhle]
          rfl

/-- Witness for C5 on a concrete timeline: removing `b` from segments
`a` on `[0,3)` and `b` on `[3,5)` keeps boundaries 0 and 5, maps no
segment to `b`, and sample 4 (inside the removed segment) now reads the
absorbing predecessor's value `a`. -/
theorem claim5_witness :
    (∀ k ∈ ((⟨["a", "b"], [0, 3, 5], [0, 1]⟩ :
        CategoricalData String).remove "b").indices,
      ["a", "b"].get? k ≠ some "b") ∧
    ((⟨["a", "b"], [0, 3, 5], [0, 1]⟩ :
        CategoricalData String).remove "b").endEvent = 5 ∧
    ((⟨["a", "b"], [0, 3, 5], [0, 1]⟩ :
        CategoricalData String).remove "b").valueAt 4 = some "a" := by
  have h := claim5_remove (⟨["a", "b"], [0, 3, 5], [0, 1]⟩ : CategoricalData String)
    "b" ⟨by decide, by decide, by decide, by simp, by simp⟩
    ⟨0, by decide, by decide⟩
  refine ⟨h.1, ?_, ?_⟩
  · rw [h.2.1.2]
    decide
  · rw [h.2.2 4 (by decide)]
    decide

/-! ### Timeline alignment (`CategoricalData.align`, absent from src) -/

/-- Distance between two grid indices (`(a - b) + (b - a)` equals
`|a - b|` under truncated subtraction). -/
def natDist (a b : Nat) : Nat := (a - b) + (b - a)

/-- One comparison step of the nearest-boundary search: prefer the new
candidate when strictly closer, or equally close and lower. -/
def snapStep (b best r2 : Nat) : Nat :=
  if natDist b r2 < natDist b best ∨
     (natDist b r2 = natDist b best ∧ r2 < best)
  then r2 else best

/-- Modelled from the spec: the boundary of `refs` closest to `b`, ties
broken toward the lower index; `b` itself when `refs` is empty. -/
def snapTo (refs : List Nat) (b : Nat) : Nat :=
  match refs with
  | [] => b
  | r :: rest => rest.foldl (snapStep b) r

/-- Better-or-equal ordering on candidate boundaries for position `b`. -/
def snapR (b u y : Nat) : Prop :=
  natDist b u < natDist b y ∨ (natDist b u = natDist b y ∧ u ≤ y)

theorem snapR_refl (b u : Nat) : snapR b u u := Or.inr ⟨rfl, le_refl u⟩

theorem snapR_trans {b u y z : Nat} (h1 : snapR b u y) (h2 : snapR b y z) :
    snapR b u z := by
  unfold snapR natDist at h1 h2 ⊢
  omega

theorem snapStep_cases (b best r2 : Nat) :
    snapStep b best r2 = r2 ∨ snapStep b best r2 = best := by
  unfold snapStep
  by_cases hc : natDist b r2 < natDist b best ∨
      (natDist b r2 = natDist b best ∧ r2 < best)
  · rw [if_pos hc]; left; rfl
  · rw [if_neg hc]; right; rfl

theorem snapStep_better_best (b best r2 : Nat) :
    snapR b (snapStep b best r2) best := by
  unfold snapStep
  by_cases hc : natDist b r2 < natDist b best ∨
      (natDist b r2 = natDist b best ∧ r2 < best)
  · rw [if_pos hc]
    unfold snapR natDist at hc ⊢
    omega
  · rw [if_neg hc]
    exact snapR_refl b best

theorem snapStep_better_r2 (b best r2 : Nat) :
    snapR b (snapStep b best r2) r2 := by
  unfold snapStep
  by_cases hc : natDist b r2 < natDist b best ∨
      (natDist b r2 = natDist b best ∧ r2 < best)
  · rw [if_pos hc]
    exact snapR_refl b r2
  · rw [if_neg hc]
    unfold snapR natDist at hc ⊢
    omega

theorem snapFold_spec (b : Nat) :
    ∀ (l : List Nat) (best : Nat),
      (l.foldl (snapStep b) best ∈ best :: l) ∧
      ∀ x ∈ best :: l, snapR b (l.foldl (snapStep b) best) x := by
  intro l
  induction l with
  | nil =>
    intro best
    refine ⟨by simp, ?_⟩
    intro x hx
    have hxb : x = best := by simpa using hx
    rw [hxb]
    exact snapR_refl b _
  | cons r2 l2 ih =>
    intro best
    show (l2.foldl (snapStep b) (snapStep b best r2) ∈ best :: r2 :: l2) ∧ _
    obtain ⟨ihm, ihb⟩ := ih (snapStep b best r2)
    constructor
    · rcases List.mem_cons.mp ihm with hh | hmem
      · rcases snapStep_cases b best r2 with hc | hc <;> rw [hh, hc] <;> simp
      · simp [hmem]
    · intro x hx
      have hR := ihb (snapStep b best r2) (by simp)
      rcases List.mem_cons.mp hx with hxb | hx2
      · rw [hxb]
        exact snapR_trans hR (snapStep_better_best b best r2)
      rcases List.mem_cons.mp hx2 with hxr | hx3
      · rw [hxr]
        exact snapR_trans hR (snapStep_better_r2 b best r2)
      · exact ihb x (by simp [hx3])

theorem snapTo_spec (b : Nat) {refs : List Nat} (h : refs ≠ []) :
    snapTo refs b ∈ refs ∧ ∀ x ∈ refs, snapR b (snapTo refs b) x := by
  cases refs with
  | nil => exact absurd rfl h
  | cons r rest => exact snapFold_spec b rest r

theorem snapTo_mono (refs : List Nat) {b1 b2 : Nat} (h : b1 ≤ b2) :
    snapTo refs b1 ≤ snapTo refs b2 := by
  cases hrefs : refs with
  | nil => simpa [snapTo] using h
  | cons r rest =>
    rw [← hrefs]
    have hne : refs ≠ [] := by rw [hrefs]; simp
    obtain ⟨hm1, hb1⟩ := snapTo_spec b1 hne
    obtain ⟨hm2, hb2⟩ := snapTo_spec b2 hne
    by_contra hcon
    push_neg at hcon
    have h1 := hb1 (snapTo refs b2) hm2
    have h2 := hb2 (snapTo refs b1) hm1
    unfold snapR natDist at h1 h2
    omega

/-- Collapse runs of equal boundaries; the later pair wins. -/
def dedupStartsKeepLast : List (Nat × Nat) → List (Nat × Nat)
  | [] => []
  | [x] => [x]
  | (s, k) :: (s2, k2) :: rest =>
    if s = s2 then dedupStartsKeepLast ((s2, k2) :: rest)
    else (s, k) :: dedupStartsKeepLast ((s2, k2) :: rest)

/-- Modelled from the spec: `align(reference_boundaries)` — snap every
boundary of the timeline except the fixed first event and the final
sentinel to the closest reference boundary (ties toward the lower
index); boundaries that collapse onto the same position are resolved
later-wins; segments pushed beyond the sentinel vanish; adjacent
segments left with equal values merge. -/
def CategoricalData.align {α : Type} [DecidableEq α] (refs : List Nat)
    (cd : CategoricalData α) : CategoricalData α :=
  match cd.segPairs with
  | [] => cd
  | (e0, k0) :: rest =>
    let snapped := (e0, k0) :: rest.map fun p => (snapTo refs p.1, p.2)
    let deduped := dedupStartsKeepLast snapped
    let kept := deduped.filter fun p => p.1 < cd.endEvent
    let merged := mergeAdjacent kept
    { cd with events := merged.map Prod.fst ++ [cd.endEvent],
              indices := merged.map Prod.snd }

/-- C4 counterexample: aligning the timeline `a` on `[0,5)`, `b` on
`[5,10)` to the reference boundaries `[0, 8, 10]` snaps boundary 5 to 8,
so sample 5 reads `b` before alignment but `a` after it — `align` does
not preserve the extracted value at every sample index. -/
theorem claim4_counterexample :
    (⟨["a", "b"], [0, 5, 10], [0, 1]⟩ :
        CategoricalData String).valueAt 5 = some "b" ∧
    ((⟨["a", "b"], [0, 5, 10], [0, 1]⟩ :
        CategoricalData String).align [0, 8, 10]).valueAt 5 = some "a" ∧
    ((⟨["a", "b"], [0, 5, 10], [0, 1]⟩ :
        CategoricalData String).align [0, 8, 10]).valueAt 5 ≠
      (⟨["a", "b"], [0, 5, 10], [0, 1]⟩ :
        CategoricalData String).valueAt 5 := by
  decide

theorem zone_le_iff {e s t : Nat}
    (h : ¬ (min e s ≤ t ∧ t < max e s)) : s ≤ t ↔ e ≤ t := by
  rcases le_total e s with h1 | h1
  · rw [min_eq_left h1, max_eq_right h1] at h
    omega
  · rw [min_eq_right h1, max_eq_left h1] at h
    omega

theorem dedup_head_fst :
    ∀ (rest : List (Nat × Nat)) (q : Nat × Nat),
      List.Chain' (fun p r => p.1 ≤ r.1) (q :: rest) →
      ∃ k, (dedupStartsKeepLast (q :: rest)).head? = some (q.1, k) := by
  intro rest
  induction rest with
  | nil => intro q _; exact ⟨q.2, rfl⟩
  | cons q2 rest2 ih =>
    intro q hch
    obtain ⟨s, k⟩ := q
    obtain ⟨s2, k2⟩ := q2
    rw [dedupStartsKeepLast]
    by_cases hs : s = s2
    · rw [if_pos hs]
      obtain ⟨k3, hk3⟩ := ih (s2, k2) hch.tail
      exact ⟨k3, by rw [hk3, hs]⟩
    · rw [if_neg hs]
      exact ⟨k, rfl⟩

theorem dedup_chain_lt :
    ∀ ps : List (Nat × Nat),
      List.Chain' (fun p q => p.1 ≤ q.1) ps →
      List.Chain' (fun p q => p.1 < q.1) (dedupStartsKeepLast ps) := by
  intro ps
  induction ps with
  | nil => intro _; simp [dedupStartsKeepLast]
  | cons p rest ih =>
    intro hch
    cases rest with
    | nil => simp [dedupStartsKeepLast]
    | cons q rest2 =>
      obtain ⟨s, k⟩ := p
      obtain ⟨s2, k2⟩ := q
      rw [dedupStartsKeepLast]
      have hle : s ≤ s2 := List.chain'_cons.mp hch |>.1
      by_cases hs : s = s2
      · rw [if_pos hs]
        exact ih hch.tail
      · rw [if_neg hs]
        rw [List.chain'_cons']
        refine ⟨?_, ih hch.tail⟩
        intro y hy
        obtain ⟨k3, hk3⟩ := dedup_head_fst rest2 (s2, k2) hch.tail
        rw [hk3] at hy
        obtain rfl : (s2, k3) = y := by simpa using hy
        show s < s2
        omega

theorem lastLE_dedup : ∀ (ps : List (Nat × Nat)) (t : Nat),
    lastLE (dedupStartsKeepLast ps) t = lastLE ps t := by
  intro ps
  induction ps with
  | nil => intro t; rfl
  | cons p rest ih =>
    intro t
    cases rest with
    | nil => rfl
    | cons q rest2 =>
      obtain ⟨s, k⟩ := p
      obtain ⟨s2, k2⟩ := q
      rw [dedupStartsKeepLast]
      by_cases hs : s = s2
      · rw [if_pos hs, ih t]
        conv_rhs => rw [lastLE_cons]
        cases hl : lastLE ((s2, k2) :: rest2) t with
        | some q3 => rfl
        | none =>
          have h2 : t < s2 := lastLE_eq_none hl (s2, k2) (by simp)
          show (none : Option (Nat × Nat)) = if s ≤ t then some (s, k) else none
          rw [if_neg (by omega)]
      · rw [if_neg hs]
        conv_lhs => rw [lastLE_cons, ih t]
        conv_rhs => rw [lastLE_cons]

theorem lastLE_filter_lt (endE : Nat) :
    ∀ (ps : List (Nat × Nat)) (t : Nat), t < endE →
      lastLE (ps.filter fun p => decide (p.1 < endE)) t = lastLE ps t := by
  intro ps
  induction ps with
  | nil => intro t _; rfl
  | cons p rest ih =>
    intro t ht
    by_cases hp : p.1 < endE
    · rw [List.filter_cons_of_pos (by simpa using hp), lastLE_cons, lastLE_cons,
        ih t ht]
    · rw [List.filter_cons_of_neg (by simpa using hp), ih t ht, lastLE_cons]
      cases hl : lastLE rest t with
      | some q => rfl
      | none => rw [if_neg (by omega)]

theorem lastLE_congr (t : Nat) :
    ∀ (ps qs : List (Nat × Nat)),
      List.Forall₂ (fun p q => (p.1 ≤ t ↔ q.1 ≤ t) ∧ p.2 = q.2) ps qs →
      (lastLE ps t).map Prod.snd = (lastLE qs t).map Prod.snd := by
  intro ps
  induction ps with
  | nil =>
    intro qs h
    cases h
    rfl
  | cons p ps2 ih =>
    intro qs h
    cases h with
    | cons hpq hrest =>
      rename_i q qs2
      rw [lastLE_cons, lastLE_cons]
      have ihe := ih qs2 hrest
      cases hl1 : lastLE ps2 t with
      | some q1 =>
        cases hl2 : lastLE qs2 t with
        | some q2 =>
          rw [hl1, hl2] at ihe
          simpa using ihe
        | none =>
          rw [hl1, hl2] at ihe
          simp at ihe
      | none =>
        cases hl2 : lastLE qs2 t with
        | some q2 =>
          rw [hl1, hl2] at ihe
          simp at ihe
        | none =>
          by_cases hle : p.1 ≤ t
          · rw [if_pos hle, if_pos (hpq.1.mp hle)]
            simpa using hpq.2
          · rw [if_neg hle, if_neg (fun hq => hle (hpq.1.mpr hq))]

/-- C4 amended: `align(reference_boundaries)` moves the interior
boundaries to their nearest reference points only, so the extracted
value is preserved at every sample index that does not lie between
some original boundary and its snapped position; at samples inside
such a moved zone the value may change (as the counterexample shows),
so preservation cannot be claimed there. -/
theorem claim4_amended_align_preserves {α : Type} [DecidableEq α]
    (cd : CategoricalData α) (refs : List Nat) (t : Nat)
    (hwf : cd.WellFormed) (h0 : cd.events.headD 0 = 0)
    (ht : t < cd.endEvent)
    (hzone : ∀ e ∈ cd.segPairs.tail.map Prod.fst,
      ¬ (min e (snapTo refs e) ≤ t ∧ t < max e (snapTo refs e))) :
    (cd.align refs).valueAt t = cd.valueAt t := by
  obtain ⟨hev, hlen, _, _, _⟩ := hwf
  have hpw_pairs : cd.segPairs.Pairwise (fun p q : Nat × Nat => p.1 < q.1) :=
    pairwise_zip_left cd.events cd.indices hev
  cases hsp : cd.segPairs with
  | nil =>
    have halign : cd.align refs = cd := by
      unfold CategoricalData.align
      rw [hsp]
    rw [halign]
  | cons p0 rest =>
    obtain ⟨e0, k0⟩ := p0
    have hpw0 : ((e0, k0) :: rest).Pairwise (fun p q : Nat × Nat => p.1 < q.1) := by
      rw [← hsp]; exact hpw_pairs
    have he0 : e0 = 0 := by
      cases hevs : cd.events with
      | nil =>
        exfalso
        have : cd.segPairs = [] := by
          rw [CategoricalData.segPairs, hevs]
          rfl
        rw [hsp] at this
        simp at this
      | cons e er =>
        cases hind : cd.indices with
        | nil =>
          exfalso
          have : cd.segPairs = [] := by
            rw [CategoricalData.segPairs, hevs, hind]
            simp
          rw [hsp] at this
          simp at this
        | cons i ir =>
          have hz : cd.segPairs = (e, i) :: er.zip ir := by
            rw [CategoricalData.segPairs, hevs, hind]
            rfl
          rw [hsp] at hz
          have h6 := congrArg List.head? hz
          simp at h6
          rw [hevs] at h0
          simp at h0
          omega
    have halign : cd.align refs =
        { cd with
          events := (mergeAdjacent
            ((dedupStartsKeepLast ((e0, k0) ::
              rest.map fun p => (snapTo refs p.1, p.2))).filter
                fun p => p.1 < cd.endEvent)).map Prod.fst ++ [cd.endEvent],
          indices := (mergeAdjacent
            ((dedupStartsKeepLast ((e0, k0) ::
              rest.map fun p => (snapTo refs p.1, p.2))).filter
                fun p => p.1 < cd.endEvent)).map Prod.snd } := by
      unfold CategoricalData.align
      rw [hsp]
    -- sortedness through the pipeline
    have hch_rest : List.Chain' (fun p q : Nat × Nat => p.1 < q.1) rest :=
      hpw0.tail.chain'
    have hch_snapped : List.Chain' (fun p q : Nat × Nat => p.1 ≤ q.1)
        ((e0, k0) :: rest.map fun p => (snapTo refs p.1, p.2)) := by
      rw [List.chain'_cons']
      constructor
      · intro y _
        show e0 ≤ y.1
        omega
      · rw [List.chain'_map]
        exact hch_rest.imp fun a b h => snapTo_mono refs (le_of_lt h)
    have hpw_ded : (dedupStartsKeepLast ((e0, k0) ::
        rest.map fun p => (snapTo refs p.1, p.2))).Pairwise
          (fun p q : Nat × Nat => p.1 < q.1) := by
      haveI : IsTrans (Nat × Nat) (fun p q : Nat × Nat => p.1 < q.1) :=
        ⟨fun a b c h1 h2 => lt_trans h1 h2⟩
      rw [← List.chain'_iff_pairwise]
      exact dedup_chain_lt _ hch_snapped
    have hpw_kept : ((dedupStartsKeepLast ((e0, k0) ::
        rest.map fun p => (snapTo refs p.1, p.2))).filter
          fun p => p.1 < cd.endEvent).Pairwise
            (fun p q : Nat × Nat => p.1 < q.1) := hpw_ded.filter _
    have hpw_merged : (mergeAdjacent
        ((dedupStartsKeepLast ((e0, k0) ::
          rest.map fun p => (snapTo refs p.1, p.2))).filter
            fun p => p.1 < cd.endEvent)).Pairwise
          (fun p q : Nat × Nat => p.1 < q.1) :=
      hpw_kept.sublist (mergeAdjacent_sublist _)
    -- left-hand side through the bridge
    have hLHS : (cd.align refs).valueAt t =
        pairValueAt cd.unique_values cd.endEvent
          (mergeAdjacent
            ((dedupStartsKeepLast ((e0, k0) ::
              rest.map fun p => (snapTo refs p.1, p.2))).filter
                fun p => p.1 < cd.endEvent)) t := by
      rw [halign]
      show pairValueAt cd.unique_values
        ((_ ++ [cd.endEvent]).getLastD 0) ((_ ++ [cd.endEvent]).zip _) t = _
      rw [getLastD_append_singleton, zip_map_append]
    rw [hLHS, pairValueAt_eq_lastLE cd.unique_values cd.endEvent _ hpw_merged t ht]
    -- value equality through each pipeline stage
    have h1 := mergeAdjacent_lastLE_snd
      ((dedupStartsKeepLast ((e0, k0) ::
        rest.map fun p => (snapTo refs p.1, p.2))).filter
          fun p => p.1 < cd.endEvent) hpw_kept t
    have h2 := lastLE_filter_lt cd.endEvent
      (dedupStartsKeepLast ((e0, k0) ::
        rest.map fun p => (snapTo refs p.1, p.2))) t ht
    have h3 := lastLE_dedup ((e0, k0) ::
      rest.map fun p => (snapTo refs p.1, p.2)) t
    have h4 : (lastLE ((e0, k0) ::
        rest.map fun p => (snapTo refs p.1, p.2)) t).map Prod.snd =
        (lastLE ((e0, k0) :: rest) t).map Prod.snd := by
      apply lastLE_congr
      constructor
      · exact ⟨Iff.rfl, rfl⟩
      · rw [List.forall₂_map_left_iff]
        rw [List.forall₂_same]
        intro p hp
        refine ⟨?_, rfl⟩
        apply zone_le_iff
        apply hzone
        rw [hsp]
        simp only [List.tail_cons, List.mem_map]
        exact ⟨p, hp, rfl⟩
    have hcomb : (lastLE (mergeAdjacent
        ((dedupStartsKeepLast ((e0, k0) ::
          rest.map fun p => (snapTo refs p.1, p.2))).filter
            fun p => p.1 < cd.endEvent)) t).map Prod.snd =
        (lastLE ((e0, k0) :: rest) t).map Prod.snd := by
      rw [h1, h2, h3, h4]
    rw [bind_snd_congr cd.unique_values hcomb]
    rw [CategoricalData.valueAt,
      pairValueAt_eq_lastLE cd.unique_values cd.endEvent cd.segPairs hpw_pairs t ht,
      hsp]

/-- Witness for C4 amended: sample 2 lies outside the moved zone
`[5, 8)` of the counterexample's alignment, and its value is indeed
preserved. -/
theorem claim4_witness :
    ((⟨["a", "b"], [0, 5, 10], [0, 1]⟩ :
        CategoricalData String).align [0, 8, 10]).valueAt 2 =
      (⟨["a", "b"], [0, 5, 10], [0, 1]⟩ :
        CategoricalData String).valueAt 2 :=
  claim4_amended_align_preserves
    (⟨["a", "b"], [0, 5, 10], [0, 1]⟩ : CategoricalData String) [0, 8, 10] 2
    ⟨by decide, by decide, by decide, by simp, by simp⟩ (by decide) (by decide)
    (by decide)

end Katdal
